import Mathlib

/-!
Verification of the text pre-processing and chunking pipeline of
`tutorials/semantic_chunking.ipynb`.

Strings are embedded as `List Char`.  The notebook's `preprocess_text`
is embedded step by step: the two single-character `str.replace` calls,
the regular-expression scan `re.findall(r'[^.!?]*[.!?]', text)`, Python's
`str.split()` (whitespace word splitting), `str.strip()` and
`' '.join(...)`.
-/

/-- Characters matched by the terminal class `[.!?]` of the extraction
regular expression in `preprocess_text`. -/
def isTerminal (c : Char) : Bool :=
  c = '.' || c = '!' || c = '?'

/-- Whitespace in the sense of Python's `str.split()` and `str.strip()`
(the characters `str.isspace` accepts). -/
def isPySpace (c : Char) : Bool :=
  c = ' ' || c = '\t' || c = '\n' || c = '\x0b' || c = '\x0c' || c = '\r' ||
  c = '\x1c' || c = '\x1d' || c = '\x1e' || c = '\x1f' || c = '\x85' || c = '\xa0' ||
  c = ' ' || c = ' ' || c = ' ' || c = ' ' || c = ' ' ||
  c = ' ' || c = ' ' || c = ' ' || c = ' ' || c = ' ' ||
  c = ' ' || c = ' ' || c = ' ' || c = ' ' || c = ' ' ||
  c = ' ' || c = '　'

/-- Embedding of `text.replace("\n", " ")`: both pattern and replacement are
single characters, so the replacement is a character-wise map. -/
def replaceNL (s : List Char) : List Char :=
  s.map fun c => if c = '\n' then ' ' else c

/-- Embedding of `text.replace("\r", " ")`. -/
def replaceCR (s : List Char) : List Char :=
  s.map fun c => if c = '\r' then ' ' else c

/-- Worker for `findSentences`.  `acc` holds (reversed) the non-terminal
characters read since the last emitted match. -/
def findSentencesAux (acc : List Char) : List Char → List (List Char)
  | [] => []
  | c :: rest =>
    if isTerminal c then (acc.reverse ++ [c]) :: findSentencesAux [] rest
    else findSentencesAux (c :: acc) rest

/-- Embedding of `re.findall(r'[^.!?]*[.!?]', text)`: the scanner emits,
left to right and without overlap, every maximal run of non-terminal
characters followed by one terminal character; characters after the last
terminal character are never part of a match. -/
def findSentences (s : List Char) : List (List Char) :=
  findSentencesAux [] s

/-- Worker for `pySplit`.  `acc` holds (reversed) the current word. -/
def pySplitAux (acc : List Char) : List Char → List (List Char)
  | [] => if acc.isEmpty then [] else [acc.reverse]
  | c :: rest =>
    if isPySpace c then
      if acc.isEmpty then pySplitAux [] rest
      else acc.reverse :: pySplitAux [] rest
    else pySplitAux (c :: acc) rest

/-- Embedding of Python `s.split()` with no argument: maximal runs of
non-whitespace characters, runs of whitespace are separators, no empty
words. -/
def pySplit (s : List Char) : List (List Char) :=
  pySplitAux [] s

/-- Embedding of Python `s.strip()`: remove leading and trailing
whitespace. -/
def pyStrip (s : List Char) : List Char :=
  (((s.dropWhile isPySpace).reverse).dropWhile isPySpace).reverse

/-- Embedding of Python `' '.join(xs)`: the elements with a single space
between consecutive elements. -/
def pyJoinSp : List (List Char) → List Char
  | [] => []
  | [s] => s
  | s :: rest => s ++ ' ' :: pyJoinSp rest

/-- Embedding of the notebook's `preprocess_text(text, min_length)`:
replace newlines and carriage returns by spaces, extract sentences with
`re.findall(r'[^.!?]*[.!?]', ...)`, keep those whose whitespace-split
word count is at least `min_length`, strip each survivor, and rejoin
with single spaces. -/
def preprocess_text (text : List Char) (min_length : Nat) : List Char :=
  let t1 := replaceNL text
  let t2 := replaceCR t1
  let sentences := findSentences t2
  let filtered_sentences :=
    (sentences.filter fun s => decide (min_length ≤ (pySplit s).length)).map pyStrip
  pyJoinSp filtered_sentences

/-- Embedding of the call `preprocess_text(book_text)`: the source's
`min_length` parameter defaults to `5`. -/
def preprocessTextDefault (text : List Char) : List Char :=
  preprocess_text text 5

/-- The list of sentences that survive the filter, each stripped — the
intermediate value `filtered_sentences` of `preprocess_text`. -/
def retainedSentences (text : List Char) (min_length : Nat) : List (List Char) :=
  ((findSentences (replaceCR (replaceNL text))).filter fun s =>
    decide (min_length ≤ (pySplit s).length)).map pyStrip

/-- Configuration record of the `SDPMChunker` constructor call in the
notebook. -/
structure SDPMChunkerConfig where
  embedding_model : List Char
  similarity_threshold : Rat
  skip_window : Nat
  chunk_size : Nat

/-- Embedding of the notebook cell
`chunker = SDPMChunker(embedding_model="minishlab/potion-base-8M",
similarity_threshold=0.3, skip_window=5, chunk_size = 256)`. -/
def chunker : SDPMChunkerConfig :=
  ⟨("minishlab/potion-base-8M").data, 0.3, 5, 256⟩

/-- C7: the pipeline configures the Segmenter with exactly the documented
default parameters: `similarity_threshold = 0.3`, `skip_window = 5`,
`chunk_size = 256`. -/
theorem C7_chunker_config :
    chunker.similarity_threshold = 0.3 ∧ chunker.skip_window = 5 ∧
      chunker.chunk_size = 256 :=
  ⟨rfl, rfl, rfl⟩

example : preprocess_text ("a \nb c d e.".data) 5 = ("a  b c d e.".data) := by decide

example : preprocess_text ("Hi. A cat sat on a mat! No".data) 5 =
    ("A cat sat on a mat!".data) := by decide

/-- Characters of the scanned text that come after the last terminal
character (the part of the text `re.findall` never matches).  Used only
to state completeness of the extraction. -/
def sentRemainderAux (acc : List Char) : List Char → List Char
  | [] => acc.reverse
  | c :: rest =>
    if isTerminal c then sentRemainderAux [] rest else sentRemainderAux (c :: acc) rest

/-- The unmatched tail of the scan, see `sentRemainderAux`. -/
def sentRemainder (s : List Char) : List Char :=
  sentRemainderAux [] s

theorem findSentencesAux_cons_term {c : Char} (h : isTerminal c = true) (acc rest) :
    findSentencesAux acc (c :: rest) = (acc.reverse ++ [c]) :: findSentencesAux [] rest := by
  simp [findSentencesAux, h]

theorem findSentencesAux_cons_nonterm {c : Char} (h : isTerminal c = false) (acc rest) :
    findSentencesAux acc (c :: rest) = findSentencesAux (c :: acc) rest := by
  simp [findSentencesAux, h]

theorem sentRemainderAux_cons_term {c : Char} (h : isTerminal c = true) (acc rest) :
    sentRemainderAux acc (c :: rest) = sentRemainderAux [] rest := by
  simp [sentRemainderAux, h]

theorem sentRemainderAux_cons_nonterm {c : Char} (h : isTerminal c = false) (acc rest) :
    sentRemainderAux acc (c :: rest) = sentRemainderAux (c :: acc) rest := by
  simp [sentRemainderAux, h]

theorem findSentencesAux_all_nonterm :
    ∀ (s : List Char), (∀ x ∈ s, isTerminal x = false) → ∀ acc,
      findSentencesAux acc s = [] := by
  intro s
  induction s with
  | nil => intro _ acc; rfl
  | cons c rest ih =>
    intro h acc
    have hc : isTerminal c = false := h c (by simp)
    rw [findSentencesAux_cons_nonterm hc]
    exact ih (fun x hx => h x (by simp [hx])) _

theorem findSentencesAux_append_nonterm (r : List Char)
    (hr : ∀ x ∈ r, isTerminal x = false) :
    ∀ (s acc : List Char), findSentencesAux acc (s ++ r) = findSentencesAux acc s := by
  intro s
  induction s with
  | nil =>
    intro acc
    rw [List.nil_append, findSentencesAux_all_nonterm r hr acc]
    rfl
  | cons c rest ih =>
    intro acc
    cases hc : isTerminal c
    · rw [List.cons_append, findSentencesAux_cons_nonterm hc,
        findSentencesAux_cons_nonterm hc, ih]
    · rw [List.cons_append, findSentencesAux_cons_term hc,
        findSentencesAux_cons_term hc, ih]

theorem mem_findSentencesAux_struct :
    ∀ (s acc : List Char) (t : List Char), (∀ x ∈ acc, isTerminal x = false) →
      t ∈ findSentencesAux acc s →
      ∃ w c, t = w ++ [c] ∧ isTerminal c = true ∧ ∀ x ∈ w, isTerminal x = false := by
  intro s
  induction s with
  | nil => intro acc t _ ht; simp [findSentencesAux] at ht
  | cons c rest ih =>
    intro acc t hacc ht
    cases hc : isTerminal c
    · rw [findSentencesAux_cons_nonterm hc] at ht
      refine ih _ _ ?_ ht
      intro x hx
      rcases List.mem_cons.mp hx with h | h
      · subst h; exact hc
      · exact hacc x h
    · rw [findSentencesAux_cons_term hc] at ht
      rcases List.mem_cons.mp ht with h | h
      · exact ⟨acc.reverse, c, h, hc, fun x hx => hacc x (List.mem_reverse.mp hx)⟩
      · exact ih [] t (by simp) h

theorem mem_of_mem_findSentencesAux :
    ∀ (s acc : List Char) (t : List Char) (x : Char),
      t ∈ findSentencesAux acc s → x ∈ t → x ∈ acc ∨ x ∈ s := by
  intro s
  induction s with
  | nil => intro acc t x ht; simp [findSentencesAux] at ht
  | cons c rest ih =>
    intro acc t x ht hx
    cases hc : isTerminal c
    · rw [findSentencesAux_cons_nonterm hc] at ht
      rcases ih _ _ _ ht hx with h | h
      · rcases List.mem_cons.mp h with h | h
        · subst h; right; simp
        · left; exact h
      · right; simp [h]
    · rw [findSentencesAux_cons_term hc] at ht
      rcases List.mem_cons.mp ht with h | h
      · subst h
        rcases List.mem_append.mp hx with h | h
        · left; exact List.mem_reverse.mp h
        · simp at h; right; simp [h]
      · rcases ih _ _ _ h hx with h | h
        · simp at h
        · right; simp [h]

theorem findSentencesAux_flatten_remainder :
    ∀ (s acc : List Char),
      (findSentencesAux acc s).flatten ++ sentRemainderAux acc s = acc.reverse ++ s := by
  intro s
  induction s with
  | nil => intro acc; simp [findSentencesAux, sentRemainderAux]
  | cons c rest ih =>
    intro acc
    cases hc : isTerminal c
    · rw [findSentencesAux_cons_nonterm hc, sentRemainderAux_cons_nonterm hc, ih]
      simp
    · rw [findSentencesAux_cons_term hc, sentRemainderAux_cons_term hc]
      have h0 := ih []
      simp only [List.reverse_nil, List.nil_append] at h0
      rw [List.flatten_cons, List.append_assoc, h0]
      simp

theorem sentRemainderAux_nonterm :
    ∀ (s acc : List Char), (∀ x ∈ acc, isTerminal x = false) →
      ∀ x ∈ sentRemainderAux acc s, isTerminal x = false := by
  intro s
  induction s with
  | nil => intro acc hacc x hx; exact hacc x (List.mem_reverse.mp hx)
  | cons c rest ih =>
    intro acc hacc x hx
    cases hc : isTerminal c
    · rw [sentRemainderAux_cons_nonterm hc] at hx
      refine ih _ ?_ x hx
      intro y hy
      rcases List.mem_cons.mp hy with h | h
      · subst h; exact hc
      · exact hacc y h
    · rw [sentRemainderAux_cons_term hc] at hx
      exact ih [] (by simp) x hx

/-- C3: every string `findSentences` extracts is a run of non-terminal
characters followed by exactly one terminal character, and the extracted
strings are exactly a left-to-right decomposition of the text: their
concatenation is a prefix of the text and the rest of the text contains
no terminal character. -/
theorem C3_sentence_extraction (t : List Char) :
    (∀ s ∈ findSentences t,
        ∃ w c, s = w ++ [c] ∧ isTerminal c = true ∧ ∀ x ∈ w, isTerminal x = false) ∧
      (findSentences t).flatten ++ sentRemainder t = t ∧
      (∀ x ∈ sentRemainder t, isTerminal x = false) := by
  refine ⟨fun s hs => mem_findSentencesAux_struct t [] s (by simp) hs, ?_, ?_⟩
  · have h := findSentencesAux_flatten_remainder t []
    simpa [findSentences, sentRemainder] using h
  · exact fun x hx => sentRemainderAux_nonterm t [] (by simp) x hx

/-- Witness for C3 at a concrete input. -/
theorem C3_sentence_extraction_witness :
    ∃ w c, ("ab.".data : List Char) = w ++ [c] ∧ isTerminal c = true ∧
      ∀ x ∈ w, isTerminal x = false :=
  (C3_sentence_extraction ("ab.xy".data)).1 ("ab.".data) (by decide)

theorem dropWhile_self_dropWhile (p : Char → Bool) (l : List Char) :
    (l.dropWhile p).dropWhile p = l.dropWhile p := by
  cases h : l.dropWhile p with
  | nil => simp
  | cons a t =>
    have w : l.dropWhile p ≠ [] := by simp [h]
    have hp := List.head_dropWhile_not p l w
    have hx : (l.dropWhile p).head w = a := by
      simp [List.head_eq_iff_head?_eq_some, h]
    rw [hx] at hp
    rw [List.dropWhile_cons_of_neg]
    simp [hp]

theorem isTerminal_not_space {c : Char} (h : isTerminal c = true) :
    isPySpace c = false := by
  have h3 : c = '.' ∨ c = '!' ∨ c = '?' := by
    simpa [isTerminal, or_assoc] using h
  rcases h3 with h3 | h3 | h3 <;> subst h3 <;> decide

/-- Decomposition of a string into leading whitespace, its stripped core,
and trailing whitespace. -/
theorem pyStrip_decomp (s : List Char) :
    ∃ p q, s = p ++ pyStrip s ++ q ∧ (∀ x ∈ p, isPySpace x = true) ∧
      (∀ x ∈ q, isPySpace x = true) := by
  refine ⟨s.takeWhile isPySpace,
    ((s.dropWhile isPySpace).reverse.takeWhile isPySpace).reverse, ?_, ?_, ?_⟩
  · have h2 :=
      (List.takeWhile_append_dropWhile isPySpace (s.dropWhile isPySpace).reverse).symm
    have h3 := congrArg List.reverse h2
    rw [List.reverse_reverse, List.reverse_append] at h3
    rw [List.append_assoc]
    conv_lhs => rw [← List.takeWhile_append_dropWhile isPySpace s]
    exact congrArg (fun t => s.takeWhile isPySpace ++ t) h3
  · exact fun x hx => List.mem_takeWhile_imp hx
  · intro x hx
    exact List.mem_takeWhile_imp (List.mem_reverse.mp hx)

theorem pyStrip_append_single {c : Char} (hc : isPySpace c = false) (w : List Char) :
    pyStrip (w ++ [c]) = w.dropWhile isPySpace ++ [c] := by
  unfold pyStrip
  rw [List.dropWhile_append]
  by_cases h : (w.dropWhile isPySpace).isEmpty
  · rw [if_pos h]
    rw [List.isEmpty_iff] at h
    rw [h, List.dropWhile_cons_of_neg (by simp [hc])]
    simp [hc]
  · rw [if_neg h]
    rw [List.reverse_append, List.reverse_cons, List.reverse_nil, List.nil_append,
      List.singleton_append, List.dropWhile_cons_of_neg (by simp [hc])]
    simp

theorem pyStrip_cons_space {c : Char} (hc : isPySpace c = true) (s : List Char) :
    pyStrip (c :: s) = pyStrip s := by
  unfold pyStrip
  rw [List.dropWhile_cons_of_pos (by simp [hc])]

theorem pySplitAux_cons_space {c : Char} (h : isPySpace c = true) (acc rest) :
    pySplitAux acc (c :: rest) =
      if acc.isEmpty then pySplitAux [] rest else acc.reverse :: pySplitAux [] rest := by
  simp [pySplitAux, h]

theorem pySplitAux_cons_nonspace {c : Char} (h : isPySpace c = false) (acc rest) :
    pySplitAux acc (c :: rest) = pySplitAux (c :: acc) rest := by
  simp [pySplitAux, h]

theorem pySplitAux_all_space :
    ∀ (q acc : List Char), (∀ x ∈ q, isPySpace x = true) →
      pySplitAux acc q = if acc.isEmpty then [] else [acc.reverse] := by
  intro q
  induction q with
  | nil => intro acc _; rfl
  | cons c q ih =>
    intro acc h
    have hq : ∀ x ∈ q, isPySpace x = true := fun x hx => h x (by simp [hx])
    rw [pySplitAux_cons_space (h c (by simp)), ih [] hq]
    cases acc <;> simp

theorem pySplitAux_append_space :
    ∀ (x acc q : List Char), (∀ y ∈ q, isPySpace y = true) →
      pySplitAux acc (x ++ q) = pySplitAux acc x := by
  intro x
  induction x with
  | nil =>
    intro acc q h
    rw [List.nil_append, pySplitAux_all_space q acc h]
    rfl
  | cons c x ih =>
    intro acc q h
    cases hc : isPySpace c
    · rw [List.cons_append, pySplitAux_cons_nonspace hc, pySplitAux_cons_nonspace hc,
        ih _ q h]
    · rw [List.cons_append, pySplitAux_cons_space hc, pySplitAux_cons_space hc,
        ih [] q h]

theorem pySplitAux_space_front :
    ∀ (p r : List Char), (∀ x ∈ p, isPySpace x = true) →
      pySplitAux [] (p ++ r) = pySplitAux [] r := by
  intro p
  induction p with
  | nil => intro r _; rfl
  | cons c p ih =>
    intro r h
    rw [List.cons_append, pySplitAux_cons_space (h c (by simp))]
    simp only [List.isEmpty_nil, if_true]
    exact ih r (fun x hx => h x (by simp [hx]))

theorem pySplit_cons_space {c : Char} (hc : isPySpace c = true) (s : List Char) :
    pySplit (c :: s) = pySplit s := by
  unfold pySplit
  rw [pySplitAux_cons_space hc]
  simp

theorem mem_of_mem_pyStrip {x : Char} {s : List Char} (h : x ∈ pyStrip s) : x ∈ s := by
  unfold pyStrip at h
  rw [List.mem_reverse] at h
  have h2 := (List.dropWhile_sublist isPySpace).subset h
  rw [List.mem_reverse] at h2
  exact (List.dropWhile_sublist isPySpace).subset h2

theorem map_eq_self_of_mem {f : Char → Char} :
    ∀ (l : List Char), (∀ x ∈ l, f x = x) → l.map f = l := by
  intro l
  induction l with
  | nil => intro _; rfl
  | cons c l ih =>
    intro h
    rw [List.map_cons, h c (by simp), ih (fun x hx => h x (by simp [hx]))]

/-- Splitting into words is invariant under stripping: word counts may be
checked before or after `strip`. -/
theorem pySplit_pyStrip (s : List Char) : pySplit (pyStrip s) = pySplit s := by
  obtain ⟨p, q, hs, hp, hq⟩ := pyStrip_decomp s
  calc pySplit (pyStrip s)
      = pySplitAux [] (pyStrip s ++ q) :=
        (pySplitAux_append_space (pyStrip s) [] q hq).symm
    _ = pySplitAux [] (p ++ (pyStrip s ++ q)) :=
        (pySplitAux_space_front p _ hp).symm
    _ = pySplit s := by rw [List.append_assoc] at hs; rw [← hs]; rfl

theorem findSentencesAux_nonterm_front :
    ∀ (w : List Char), (∀ x ∈ w, isTerminal x = false) →
      ∀ (acc s : List Char),
        findSentencesAux acc (w ++ s) = findSentencesAux (w.reverse ++ acc) s := by
  intro w
  induction w with
  | nil => intro _ acc s; simp
  | cons c w ih =>
    intro h acc s
    have hc : isTerminal c = false := h c (by simp)
    have he : (c :: w).reverse ++ acc = w.reverse ++ (c :: acc) := by simp
    rw [List.cons_append, findSentencesAux_cons_nonterm hc,
      ih (fun x hx => h x (by simp [hx])) (c :: acc) s, he]

theorem pyJoinSp_cons_cons (s t : List Char) (r : List (List Char)) :
    pyJoinSp (s :: t :: r) = s ++ ' ' :: pyJoinSp (t :: r) := rfl

theorem mem_pyJoinSp :
    ∀ (L : List (List Char)) (x : Char),
      x ∈ pyJoinSp L → x = ' ' ∨ ∃ l ∈ L, x ∈ l := by
  intro L
  induction L with
  | nil => intro x hx; simp [pyJoinSp] at hx
  | cons s rest ih =>
    cases rest with
    | nil => intro x hx; right; exact ⟨s, by simp, hx⟩
    | cons t r =>
      intro x hx
      rw [pyJoinSp_cons_cons] at hx
      rcases List.mem_append.mp hx with h | h
      · right; exact ⟨s, by simp, h⟩
      · rcases List.mem_cons.mp h with h | h
        · left; exact h
        · rcases ih x h with h | ⟨l, hl, hxl⟩
          · left; exact h
          · right; exact ⟨l, by simp [hl], hxl⟩

theorem pyJoinSp_append :
    ∀ (a b : List (List Char)), a ≠ [] → b ≠ [] →
      pyJoinSp (a ++ b) = pyJoinSp a ++ ' ' :: pyJoinSp b := by
  intro a
  induction a with
  | nil => intro b h _; exact absurd rfl h
  | cons s a ih =>
    intro b _ hb
    cases a with
    | nil =>
      cases b with
      | nil => exact absurd rfl hb
      | cons t r => rw [List.cons_append, List.nil_append, pyJoinSp_cons_cons]; rfl
    | cons u a2 =>
      rw [List.cons_append, List.cons_append, pyJoinSp_cons_cons]
      rw [show u :: (a2 ++ b) = (u :: a2) ++ b from rfl]
      rw [ih b (by simp) hb, pyJoinSp_cons_cons]
      simp

/-- The sentence decomposition of a space-joined list of sentences: the
first sentence as is, every later one with the separating space attached
in front. -/
def withSpaceSeps : List (List Char) → List (List Char)
  | [] => []
  | l :: ls => l :: ls.map (fun t => ' ' :: t)

theorem findSentencesAux_pyJoinSp :
    ∀ (ls : List (List Char)) (l p : List Char),
      (∀ t ∈ l :: ls, ∃ w c, t = w ++ [c] ∧ isTerminal c = true ∧
        ∀ x ∈ w, isTerminal x = false) →
      (∀ x ∈ p, isTerminal x = false) →
      findSentencesAux p.reverse (pyJoinSp (l :: ls)) =
        (p ++ l) :: ls.map (fun t => ' ' :: t) := by
  intro ls
  induction ls with
  | nil =>
    intro l p hl hp
    obtain ⟨w, c, rfl, hc, hw⟩ := hl l (by simp)
    show findSentencesAux p.reverse (w ++ [c]) = _
    rw [findSentencesAux_nonterm_front w hw p.reverse [c],
      findSentencesAux_cons_term hc]
    simp [findSentencesAux, List.append_assoc]
  | cons l2 ls ih =>
    intro l p hl hp
    obtain ⟨w, c, hlw, hc, hw⟩ := hl l (by simp)
    rw [pyJoinSp_cons_cons]
    subst hlw
    rw [List.append_assoc, List.singleton_append,
      findSentencesAux_nonterm_front w hw p.reverse _,
      findSentencesAux_cons_term hc,
      findSentencesAux_cons_nonterm (show isTerminal ' ' = false from by decide)]
    have h2 := ih l2 [' '] (fun t ht => hl t (List.mem_cons_of_mem _ ht)) (by decide)
    rw [show ([' '] : List Char).reverse = [' '] from rfl] at h2
    rw [show (' ' :: []) = ([' '] : List Char) from rfl, h2]
    simp [List.reverse_append, List.append_assoc]

theorem findSentences_pyJoinSp (L : List (List Char))
    (hL : ∀ t ∈ L, ∃ w c, t = w ++ [c] ∧ isTerminal c = true ∧
      ∀ x ∈ w, isTerminal x = false) :
    findSentences (pyJoinSp L) = withSpaceSeps L := by
  cases L with
  | nil => rfl
  | cons l ls =>
    have h := findSentencesAux_pyJoinSp ls l [] hL (by simp)
    simpa [findSentences, withSpaceSeps] using h

theorem replaceCR_replaceNL_chars (t : List Char) :
    ∀ x ∈ replaceCR (replaceNL t), x ≠ '\n' ∧ x ≠ '\r' := by
  intro x hx
  rcases List.mem_map.mp hx with ⟨y, hy, rfl⟩
  rcases List.mem_map.mp hy with ⟨z, hz, rfl⟩
  by_cases h1 : z = '\n'
  · simp only [if_pos h1]
    decide
  · simp only [if_neg h1]
    by_cases h2 : z = '\r'
    · simp only [if_pos h2]
      decide
    · simp only [if_neg h2]
      exact ⟨h1, h2⟩

theorem replace_preserves_nonterm (r : List Char)
    (hr : ∀ x ∈ r, isTerminal x = false) :
    ∀ x ∈ replaceCR (replaceNL r), isTerminal x = false := by
  intro x hx
  rcases List.mem_map.mp hx with ⟨y, hy, rfl⟩
  rcases List.mem_map.mp hy with ⟨z, hz, rfl⟩
  by_cases h1 : z = '\n'
  · simp only [if_pos h1]
    decide
  · simp only [if_neg h1]
    by_cases h2 : z = '\r'
    · simp only [if_pos h2]
      decide
    · simp only [if_neg h2]
      exact hr z hz

theorem preprocess_text_eq (text : List Char) (min_length : Nat) :
    preprocess_text text min_length = pyJoinSp (retainedSentences text min_length) :=
  rfl

theorem retainedSentences_struct (text : List Char) (min_length : Nat) :
    ∀ l ∈ retainedSentences text min_length,
      (∃ w c, l = w ++ [c] ∧ isTerminal c = true ∧ ∀ x ∈ w, isTerminal x = false) ∧
        min_length ≤ (pySplit l).length ∧ pyStrip l = l := by
  intro l hl
  unfold retainedSentences at hl
  rcases List.mem_map.mp hl with ⟨s, hs, rfl⟩
  rcases List.mem_filter.mp hs with ⟨hmem, hcond⟩
  obtain ⟨w, c, rfl, hc, hw⟩ :=
    mem_findSentencesAux_struct (replaceCR (replaceNL text)) [] s (by simp) hmem
  have hcsp : isPySpace c = false := isTerminal_not_space hc
  have hstrip : pyStrip (w ++ [c]) = w.dropWhile isPySpace ++ [c] :=
    pyStrip_append_single hcsp w
  refine ⟨⟨w.dropWhile isPySpace, c, hstrip, hc, ?_⟩, ?_, ?_⟩
  · exact fun x hx => hw x ((List.dropWhile_sublist isPySpace).subset hx)
  · rw [pySplit_pyStrip]
    simpa using hcond
  · rw [hstrip, pyStrip_append_single hcsp, dropWhile_self_dropWhile]

theorem retainedSentences_chars (text : List Char) (min_length : Nat) :
    ∀ l ∈ retainedSentences text min_length, ∀ x ∈ l, x ≠ '\n' ∧ x ≠ '\r' := by
  intro l hl x hx
  unfold retainedSentences at hl
  rcases List.mem_map.mp hl with ⟨s, hs, rfl⟩
  have hxs : x ∈ s := mem_of_mem_pyStrip hx
  have hmem := (List.mem_filter.mp hs).1
  rcases mem_of_mem_findSentencesAux (replaceCR (replaceNL text)) [] s x hmem hxs with
    h | h
  · simp at h
  · exact replaceCR_replaceNL_chars text x h

/-- A list of strings each of which ends in a terminal character, has no
interior terminal character, word count at least `min_length`, is
`strip`-fixed and contains no newline or carriage return, is a fixed
point of `preprocess_text` after joining with single spaces. -/
theorem preprocess_fixed (min_length : Nat) (L : List (List Char))
    (hstruct : ∀ l ∈ L, ∃ w c, l = w ++ [c] ∧ isTerminal c = true ∧
      ∀ x ∈ w, isTerminal x = false)
    (hcount : ∀ l ∈ L, min_length ≤ (pySplit l).length)
    (hstrip : ∀ l ∈ L, pyStrip l = l)
    (hchar : ∀ l ∈ L, ∀ x ∈ l, x ≠ '\n' ∧ x ≠ '\r') :
    preprocess_text (pyJoinSp L) min_length = pyJoinSp L := by
  rw [preprocess_text_eq]
  unfold retainedSentences
  have hfix : replaceCR (replaceNL (pyJoinSp L)) = pyJoinSp L := by
    unfold replaceNL replaceCR
    rw [List.map_map]
    apply map_eq_self_of_mem
    intro x hx
    have hx2 : x ≠ '\n' ∧ x ≠ '\r' := by
      rcases mem_pyJoinSp L x hx with h | ⟨l, hl, hxl⟩
      · subst h; exact ⟨by decide, by decide⟩
      · exact hchar l hl x hxl
    simp only [Function.comp]
    rw [if_neg hx2.1, if_neg hx2.2]
  rw [hfix, findSentences_pyJoinSp L hstruct]
  cases L with
  | nil => rfl
  | cons l ls =>
    have hall : ∀ t ∈ withSpaceSeps (l :: ls),
        (fun t => decide (min_length ≤ (pySplit t).length)) t = true := by
      intro t ht
      simp only [withSpaceSeps] at ht
      rcases List.mem_cons.mp ht with h | h
      · subst h
        simp only [decide_eq_true_eq]
        exact hcount t (by simp)
      · rcases List.mem_map.mp h with ⟨l2, hl2, rfl⟩
        simp only [decide_eq_true_eq, pySplit_cons_space (show isPySpace ' ' = true from by decide)]
        exact hcount l2 (by simp [hl2])
    rw [List.filter_eq_self.mpr hall]
    have hmapstrip : (withSpaceSeps (l :: ls)).map pyStrip = l :: ls := by
      simp only [withSpaceSeps, List.map_cons, List.map_map]
      rw [hstrip l (by simp)]
      have hcongr : ∀ l2 ∈ ls, (pyStrip ∘ fun t => ' ' :: t) l2 = id l2 := by
        intro l2 hl2
        simp only [Function.comp, id]
        rw [pyStrip_cons_space (show isPySpace ' ' = true from by decide),
          hstrip l2 (by simp [hl2])]
      rw [List.map_congr_left hcongr, List.map_id]
    rw [hmapstrip]

/-- C1: normalization is idempotent: for every input string and every
`min_length`, `preprocess_text (preprocess_text s) = preprocess_text s`. -/
theorem C1_preprocess_idempotent (text : List Char) (min_length : Nat) :
    preprocess_text (preprocess_text text min_length) min_length =
      preprocess_text text min_length := by
  have h := retainedSentences_struct text min_length
  rw [preprocess_text_eq text min_length]
  exact preprocess_fixed min_length (retainedSentences text min_length)
    (fun l hl => (h l hl).1)
    (fun l hl => (h l hl).2.1)
    (fun l hl => (h l hl).2.2)
    (retainedSentences_chars text min_length)

/-- C2: a sentence extracted by `preprocess_text` survives the filter if
and only if its whitespace-split word count is at least the configured
minimum, and the call without `min_length` uses the default minimum 5. -/
theorem C2_sentence_filter (text : List Char) (min_length : Nat) (s : List Char) :
    (s ∈ (findSentences (replaceCR (replaceNL text))).filter
        (fun t => decide (min_length ≤ (pySplit t).length)) ↔
      s ∈ findSentences (replaceCR (replaceNL text)) ∧
        min_length ≤ (pySplit s).length) ∧
      preprocessTextDefault text = preprocess_text text 5 := by
  constructor
  · rw [List.mem_filter]
    simp
  · rfl

/-- C4: the output of `preprocess_text` is exactly the retained sentences
(each stripped), joined by single spaces, in their original relative
order (the retained list is a sublist of the stripped sentence list). -/
theorem C4_ordered_rejoin (text : List Char) (min_length : Nat) :
    preprocess_text text min_length = pyJoinSp (retainedSentences text min_length) ∧
      List.Sublist (retainedSentences text min_length)
        ((findSentences (replaceCR (replaceNL text))).map pyStrip) ∧
      ∀ (a b : List Char) (r : List (List Char)),
        pyJoinSp (a :: b :: r) = a ++ ' ' :: pyJoinSp (b :: r) :=
  ⟨rfl, (List.filter_sublist _).map pyStrip, fun _ _ _ => rfl⟩

/-- C5: the output of `preprocess_text` contains no newline and no
carriage-return character. -/
theorem C5_no_newline_output (text : List Char) (min_length : Nat) :
    ∀ c ∈ preprocess_text text min_length, c ≠ '\n' ∧ c ≠ '\r' := by
  intro c hc
  rw [preprocess_text_eq] at hc
  rcases mem_pyJoinSp _ c hc with h | ⟨l, hl, hcl⟩
  · subst h
    exact ⟨by decide, by decide⟩
  · exact retainedSentences_chars text min_length l hl c hcl

/-- Witness for C5 at a concrete input. -/
theorem C5_no_newline_output_witness : ('a' : Char) ≠ '\n' ∧ ('a' : Char) ≠ '\r' :=
  C5_no_newline_output ("a b c d e.".data) 5 'a' (by decide)

/-- C6: `preprocess_text` is deterministic: equal arguments produce equal
outputs (side-effect freedom holds by the embedding: the source function
only builds and returns a new string). -/
theorem C6_deterministic (t1 t2 : List Char) (m1 m2 : Nat)
    (h1 : t1 = t2) (h2 : m1 = m2) :
    preprocess_text t1 m1 = preprocess_text t2 m2 := by
  rw [h1, h2]

/-- Witness for C6 at a concrete input. -/
theorem C6_deterministic_witness :
    preprocess_text ("a.".data) 1 = preprocess_text ("a.".data) 1 :=
  C6_deterministic ("a.".data) ("a.".data) 1 1 rfl rfl

/-- C9: characters after the last terminal punctuation mark never reach
the output: appending a terminal-free suffix does not change the result,
and a wholly terminal-free input yields the empty output. -/
theorem C9_trailing_dropped (s r t : List Char) (min_length : Nat)
    (hr : ∀ x ∈ r, isTerminal x = false) (ht : ∀ x ∈ t, isTerminal x = false) :
    preprocess_text (s ++ r) min_length = preprocess_text s min_length ∧
      preprocess_text t min_length = [] := by
  constructor
  · have hB := replace_preserves_nonterm r hr
    have hA : replaceCR (replaceNL (s ++ r)) =
        replaceCR (replaceNL s) ++ replaceCR (replaceNL r) := by
      simp [replaceNL, replaceCR]
    rw [preprocess_text_eq, preprocess_text_eq]
    unfold retainedSentences findSentences
    rw [hA, findSentencesAux_append_nonterm _ hB]
  · rw [preprocess_text_eq]
    unfold retainedSentences findSentences
    rw [findSentencesAux_all_nonterm _ (replace_preserves_nonterm t ht) []]
    rfl

/-- Witness for C9 at concrete inputs. -/
theorem C9_trailing_dropped_witness :
    preprocess_text ("a b c d e.".data ++ "xy".data) 5 =
        preprocess_text ("a b c d e.".data) 5 ∧
      preprocess_text ("hello".data) 5 = [] :=
  C9_trailing_dropped ("a b c d e.".data) ("xy".data) ("hello".data) 5
    (by decide) (by decide)

/-- C10: stripping removes only leading and trailing whitespace — every
string is leading whitespace, then its stripped core kept verbatim, then
trailing whitespace — and an interior double space (here produced by a
newline after a space) survives into the output of `preprocess_text`. -/
theorem C10_interior_whitespace_kept :
    (∀ s : List Char, ∃ p q, s = p ++ pyStrip s ++ q ∧
        (∀ x ∈ p, isPySpace x = true) ∧ (∀ x ∈ q, isPySpace x = true)) ∧
      preprocess_text ("a \nb c d e.".data) 5 = ("a  b c d e.".data) :=
  ⟨pyStrip_decomp, by decide⟩

theorem pyJoinSp_map_flatten :
    ∀ (G : List (List (List Char))), (∀ g ∈ G, g ≠ []) →
      pyJoinSp (G.map pyJoinSp) = pyJoinSp G.flatten := by
  intro G
  induction G with
  | nil => intro _; rfl
  | cons g G2 ih =>
    intro h
    cases G2 with
    | nil => simp [pyJoinSp]
    | cons g2 G3 =>
      have hg : g ≠ [] := h g (by simp)
      have hg2 : g2 ≠ [] := h g2 (by simp)
      have hflat : ((g2 :: G3).flatten) ≠ [] := by
        rw [List.flatten_cons]
        intro hcontra
        exact hg2 (List.append_eq_nil.mp hcontra).1
      rw [List.map_cons, List.map_cons, pyJoinSp_cons_cons,
        show (pyJoinSp g2 :: G3.map pyJoinSp) = (g2 :: G3).map pyJoinSp from by simp,
        ih (fun x hx => h x (by simp [hx])),
        show (g :: g2 :: G3).flatten = g ++ (g2 :: G3).flatten from rfl,
        pyJoinSp_append g ((g2 :: G3).flatten) hg hflat]

/-- Modelled from the spec: the Segmenter's greedy first pass (spec
section 4.2, steps 3 and 4).  The implementation, `chonkie`'s
`SDPMChunker.chunk`, is an external library and not part of this
repository.  `cur` holds the current chunk (reversed), `curSize` its
accumulated word count, `prev` the previous unit; a unit joins the
current chunk while the size stays within `chunkSize` and similarity to
the previous unit stays at or above `threshold`, otherwise the chunk is
closed and the unit starts a new one. -/
def greedyAux (sim : List Char → List Char → Rat) (threshold : Rat) (chunkSize : Nat)
    (prev : List Char) (cur : List (List Char)) (curSize : Nat) :
    List (List Char) → List (List (List Char))
  | [] => [cur.reverse]
  | u :: rest =>
    if curSize + (pySplit u).length ≤ chunkSize ∧ threshold ≤ sim prev u then
      greedyAux sim threshold chunkSize u (u :: cur) (curSize + (pySplit u).length) rest
    else
      cur.reverse :: greedyAux sim threshold chunkSize u [u] ((pySplit u).length) rest

/-- Modelled from the spec: greedy chunking of a unit list (empty input
yields an empty chunk sequence). -/
def greedyChunks (sim : List Char → List Char → Rat) (threshold : Rat)
    (chunkSize : Nat) : List (List Char) → List (List (List Char))
  | [] => []
  | u :: rest => greedyAux sim threshold chunkSize u [u] ((pySplit u).length) rest

/-- Modelled from the spec: search the next `skipWindow` chunks for one
similar enough to the current chunk to merge with (spec section 4.2,
step 5; the exact acceptance criterion is an open question in the spec,
so the similarity measure is an abstract parameter). -/
def findSkip (simC : List (List Char) → List (List Char) → Rat) (threshold : Rat)
    (c : List (List Char)) : Nat → List (List (List Char)) → Option Nat
  | 0, _ => none
  | _, [] => none
  | w + 1, d :: rest =>
    if threshold ≤ simC c d then some 0
    else (findSkip simC threshold c w rest).map (· + 1)

/-- Modelled from the spec: second, skip-window merging pass.  When a
chunk within the window is similar enough, the current chunk absorbs
every chunk up to and including it (keeping the in-between chunks, so
document order is preserved).  `fuel` bounds the recursion and is set to
the list length by `skipMerge`. -/
def skipMergeFuel (simC : List (List Char) → List (List Char) → Rat)
    (threshold : Rat) (skipWindow : Nat) :
    Nat → List (List (List Char)) → List (List (List Char))
  | _, [] => []
  | 0, l => l
  | fuel + 1, c :: rest =>
    match findSkip simC threshold c skipWindow rest with
    | none => c :: skipMergeFuel simC threshold skipWindow fuel rest
    | some j =>
      (c ++ (rest.take (j + 1)).flatten) ::
        skipMergeFuel simC threshold skipWindow fuel (rest.drop (j + 1))

/-- Modelled from the spec: the skip-window merging pass over a chunk
list. -/
def skipMerge (simC : List (List Char) → List (List Char) → Rat)
    (threshold : Rat) (skipWindow : Nat)
    (l : List (List (List Char))) : List (List (List Char)) :=
  skipMergeFuel simC threshold skipWindow l.length l

/-- Modelled from the spec: the double-pass semantic chunker — greedy
accumulation followed by skip-window merging (spec section 4.2). -/
def sdpmChunk (sim : List Char → List Char → Rat)
    (simC : List (List Char) → List (List Char) → Rat)
    (threshold : Rat) (skipWindow chunkSize : Nat)
    (units : List (List Char)) : List (List (List Char)) :=
  skipMerge simC threshold skipWindow (greedyChunks sim threshold chunkSize units)

theorem greedyAux_flatten (sim : List Char → List Char → Rat) (threshold : Rat)
    (chunkSize : Nat) :
    ∀ (rest : List (List Char)) (prev : List Char) (cur : List (List Char)) (sz : Nat),
      (greedyAux sim threshold chunkSize prev cur sz rest).flatten =
        cur.reverse ++ rest := by
  intro rest
  induction rest with
  | nil => intro prev cur sz; simp [greedyAux]
  | cons u rest ih =>
    intro prev cur sz
    by_cases h : sz + (pySplit u).length ≤ chunkSize ∧ threshold ≤ sim prev u
    · rw [show greedyAux sim threshold chunkSize prev cur sz (u :: rest) =
          greedyAux sim threshold chunkSize u (u :: cur) (sz + (pySplit u).length) rest
          from by simp [greedyAux, h], ih]
      simp
    · rw [show greedyAux sim threshold chunkSize prev cur sz (u :: rest) =
          cur.reverse :: greedyAux sim threshold chunkSize u [u] ((pySplit u).length) rest
          from by simp [greedyAux, h], List.flatten_cons, ih]
      simp

theorem greedyAux_ne_nil (sim : List Char → List Char → Rat) (threshold : Rat)
    (chunkSize : Nat) :
    ∀ (rest : List (List Char)) (prev : List Char) (cur : List (List Char)) (sz : Nat),
      cur ≠ [] → ∀ ch ∈ greedyAux sim threshold chunkSize prev cur sz rest, ch ≠ [] := by
  intro rest
  induction rest with
  | nil =>
    intro prev cur sz hcur ch hch
    simp [greedyAux] at hch
    simp [hch, hcur]
  | cons u rest ih =>
    intro prev cur sz hcur ch hch
    by_cases h : sz + (pySplit u).length ≤ chunkSize ∧ threshold ≤ sim prev u
    · rw [show greedyAux sim threshold chunkSize prev cur sz (u :: rest) =
          greedyAux sim threshold chunkSize u (u :: cur) (sz + (pySplit u).length) rest
          from by simp [greedyAux, h]] at hch
      exact ih _ _ _ (by simp) ch hch
    · rw [show greedyAux sim threshold chunkSize prev cur sz (u :: rest) =
          cur.reverse :: greedyAux sim threshold chunkSize u [u] ((pySplit u).length) rest
          from by simp [greedyAux, h]] at hch
      rcases List.mem_cons.mp hch with h2 | h2
      · subst h2; simp [hcur]
      · exact ih _ _ _ (by simp) ch h2

theorem greedyChunks_flatten (sim : List Char → List Char → Rat) (threshold : Rat)
    (chunkSize : Nat) (units : List (List Char)) :
    (greedyChunks sim threshold chunkSize units).flatten = units := by
  cases units with
  | nil => rfl
  | cons u rest =>
    rw [show greedyChunks sim threshold chunkSize (u :: rest) =
        greedyAux sim threshold chunkSize u [u] ((pySplit u).length) rest from rfl,
      greedyAux_flatten]
    rfl

theorem greedyChunks_ne_nil (sim : List Char → List Char → Rat) (threshold : Rat)
    (chunkSize : Nat) (units : List (List Char)) :
    ∀ ch ∈ greedyChunks sim threshold chunkSize units, ch ≠ [] := by
  cases units with
  | nil => intro ch hch; simp [greedyChunks] at hch
  | cons u rest =>
    intro ch hch
    exact greedyAux_ne_nil sim threshold chunkSize rest u [u] ((pySplit u).length)
      (by simp) ch hch

theorem skipMergeFuel_flatten (simC : List (List Char) → List (List Char) → Rat)
    (threshold : Rat) (skipWindow : Nat) :
    ∀ (fuel : Nat) (l : List (List (List Char))),
      (skipMergeFuel simC threshold skipWindow fuel l).flatten = l.flatten := by
  intro fuel
  induction fuel with
  | zero => intro l; cases l <;> rfl
  | succ fuel ih =>
    intro l
    cases l with
    | nil => rfl
    | cons c rest =>
      rw [skipMergeFuel]
      cases hfs : findSkip simC threshold c skipWindow rest with
      | none => simp [List.flatten_cons, ih]
      | some j =>
        simp only [List.flatten_cons, ih]
        rw [List.append_assoc, ← List.flatten_append, List.take_append_drop]

theorem skipMergeFuel_ne_nil (simC : List (List Char) → List (List Char) → Rat)
    (threshold : Rat) (skipWindow : Nat) :
    ∀ (fuel : Nat) (l : List (List (List Char))), (∀ x ∈ l, x ≠ []) →
      ∀ ch ∈ skipMergeFuel simC threshold skipWindow fuel l, ch ≠ [] := by
  intro fuel
  induction fuel with
  | zero =>
    intro l hl ch hch
    cases l with
    | nil => simp [skipMergeFuel] at hch
    | cons c rest => exact hl ch hch
  | succ fuel ih =>
    intro l hl ch hch
    cases l with
    | nil => simp [skipMergeFuel] at hch
    | cons c rest =>
      cases hfs : findSkip simC threshold c skipWindow rest with
      | none =>
        rw [show skipMergeFuel simC threshold skipWindow (fuel + 1) (c :: rest) =
            c :: skipMergeFuel simC threshold skipWindow fuel rest from by
          rw [skipMergeFuel, hfs]] at hch
        rcases List.mem_cons.mp hch with h2 | h2
        · rw [h2]; exact hl c (by simp)
        · exact ih rest (fun x hx => hl x (by simp [hx])) ch h2
      | some j =>
        rw [show skipMergeFuel simC threshold skipWindow (fuel + 1) (c :: rest) =
            (c ++ (rest.take (j + 1)).flatten) ::
              skipMergeFuel simC threshold skipWindow fuel (rest.drop (j + 1)) from by
          rw [skipMergeFuel, hfs]] at hch
        rcases List.mem_cons.mp hch with h2 | h2
        · rw [h2]
          intro hcontra
          exact hl c (by simp) (List.append_eq_nil.mp hcontra).1
        · refine ih (rest.drop (j + 1)) ?_ ch h2
          intro x hx
          exact hl x (by simp [List.mem_of_mem_drop hx])

/-- C8: concatenating (with the single-space separators of the
normalized Document) the texts of all chunks the modelled Segmenter
produces from the retained sentences of a normalized Document, in order,
reproduces the normalized Document exactly — short sentences were
already removed and whitespace canonicalized by `preprocess_text`. -/
theorem C8_chunk_round_trip (text : List Char) (min_length : Nat)
    (sim : List Char → List Char → Rat)
    (simC : List (List Char) → List (List Char) → Rat)
    (threshold : Rat) (skipWindow chunkSize : Nat) :
    pyJoinSp ((sdpmChunk sim simC threshold skipWindow chunkSize
        (retainedSentences text min_length)).map pyJoinSp) =
      preprocess_text text min_length := by
  have hGne := greedyChunks_ne_nil sim threshold chunkSize
    (retainedSentences text min_length)
  have hMne := skipMergeFuel_ne_nil simC threshold skipWindow
    (greedyChunks sim threshold chunkSize (retainedSentences text min_length)).length
    (greedyChunks sim threshold chunkSize (retainedSentences text min_length)) hGne
  rw [preprocess_text_eq]
  unfold sdpmChunk skipMerge
  rw [pyJoinSp_map_flatten _ hMne, skipMergeFuel_flatten, greedyChunks_flatten]
